import Mathlib

/-!
Verification of the persistent configuration engine of
`mjlib/micro/persistent_config.cc`.

The engine is shallowly embedded: the registry is a list of elements, a
handler is a record of pure functions, flash is a list of byte values, and
the asynchronous protocol side effects (replies, completion callbacks,
update notifications, flash operations) are collected into an event trace.

External collaborators that are not part of the translated source (the
varint codec of the telemetry byte stream, the CRC32 primitive, the text
tokenizer, and the `kMaxStringSize` bound) are modelled from the spec and
marked as such in their doc comments.
-/

namespace PersistentConfig

/-- Byte sequence of a registry name, as the C++ `std::string_view` bytes
of an ASCII name (the registry stores the name both as the lookup key and
as the bytes written to flash). -/
def strBytes (s : String) : List Nat := s.toList.map Char.toNat

/-- Modelled from the spec: `telemetry::Format::kMaxStringSize`, the bound
on a decoded name length ("malformed/oversized name length"). -/
def kMaxStringSize : Nat := 16777216

/-- Modelled from the spec: the CRC32 primitive, an external collaborator;
only its determinism and its 32-bit range matter to this engine, so any
executable 32-bit digest over byte spans serves as the model. -/
def crc32 (bytes : List Nat) : Nat :=
  (bytes.foldl (fun acc b => acc * 131 + b + 17) 5381) % 4294967296

/-- Modelled from the spec: the varint-based byte stream codec
(`telemetry::ReadStream::ReadVaruint`): seven payload bits per byte, high
bit set on every byte except the last; fails only when the stream is
exhausted mid-number. `mult` and `acc` carry the position weight and the
partial value. -/
def readVaruintGo : List Nat → Nat → Nat → Option (Nat × List Nat)
  | [], _, _ => none
  | b :: rest, mult, acc =>
    if b < 128 then some (acc + b * mult, rest)
    else readVaruintGo rest (mult * 128) (acc + (b - 128) * mult)

/-- Modelled from the spec: read one varuint from the head of the stream. -/
def readVaruint (bytes : List Nat) : Option (Nat × List Nat) :=
  readVaruintGo bytes 1 0

/-- Modelled from the spec: varuint encoder, fueled for structural
recursion; `fuel > n` always suffices. -/
def varuintEncGo : Nat → Nat → List Nat
  | 0, _ => []
  | fuel + 1, n => if n < 128 then [n] else (n % 128 + 128) :: varuintEncGo fuel (n / 128)

/-- Modelled from the spec: encode `n` as a varuint
(`telemetry::WriteStream::WriteString` writes the length this way). -/
def varuintEnc (n : Nat) : List Nat := varuintEncGo (n + 1) n

/-- Little-endian bytes of a `uint32` value, as `telemetry::WriteStream::Write`
emits for a `static_cast<uint32_t>` argument (truncation included). -/
def u32le (n : Nat) : List Nat :=
  [n % 256, n / 256 % 256, n / 65536 % 256, n / 16777216 % 256]

/-- Value of a little-endian byte list, as `telemetry::ReadStream::Read<uint32_t>`
assembles it. -/
def leNat (l : List Nat) : Nat := l.foldr (fun b acc => b + 256 * acc) 0

/-- `SizeCountingStream`: the size-only counting sink used for the dry-run
`WriteBinary`; each `write` call adds the chunk's size to the running
count and retains no bytes. -/
def sizeCountingStreamSize (chunks : List (List Nat)) : Nat :=
  chunks.foldl (fun acc c => acc + c.length) 0

/-- `SerializableHandlerBase`: the per-group handler capability set.  The
handler's mutable state is threaded explicitly as a `List Nat` value.
`writeBinaryChunks` gives the chunks `WriteBinary` emits to a write
stream, `readBinary` consumes a prefix of the stream returning the new
state and the number of bytes consumed (its error return is swallowed by
the caller, as in the source), `schema` is the self-description
`WriteSchema` writes, and the protocol capabilities `set`, `read`,
`readAsync` and `enumerateError` model `Set`, the immediate and
asynchronous outcomes of `Read`, and the completion outcome the handler's
`Enumerate` reports. -/
structure SerializableHandlerBase where
  schema : List Nat
  writeBinaryChunks : List Nat → List (List Nat)
  readBinary : List Nat → List Nat → List Nat × Nat
  setDefault : List Nat
  set : String → String → List Nat → Int × List Nat
  read : String → Int
  readAsync : String → Option Nat
  enumerateError : Option Nat

/-- `Impl::Element` together with the handler's current in-memory state:
a registered group. The `updated` callback is modelled as an emitted
event carrying the group name. -/
structure Element where
  name : String
  handler : SerializableHandlerBase
  value : List Nat

/-- Observable side effects of the engine: update notifications, the
enumerate state machine entering a group's `Enumerate` capability, flash
region operations, writes of byte chunks to the flash stream, protocol
replies, and firing of the command completion callback (`none` meaning
success, `some e` an error code). -/
inductive Event where
  | updated (name : String)
  | visitEnumerate (name : String)
  | unlockFlash
  | eraseFlash
  | lockFlash
  | flashWrite (bytes : List Nat)
  | reply (msg : String)
  | complete (err : Option Nat)
  deriving DecidableEq, Repr

def okReply : String := "OK\r\n"
def errUnknownGroup : String := "ERR unknown group\r\n"
def errUnknownSub : String := "ERR unknown subcommand\r\n"
def errSetting : String := "ERR error setting\r\n"
def errReading : String := "ERR error reading\r\n"
def crlf : String := "\r\n"

/-- `elements_.find(name)` during the load scan: the first registered
element whose name bytes equal the decoded name. -/
def findByBytes (regs : List Element) (nm : List Nat) : Option Element :=
  regs.find? (fun e => decide (strBytes e.name = nm))

/-- `elements_.find(group)` during `Get`/`Set`: lookup by the textual
group name. -/
def findByName (regs : List Element) (nm : String) : Option Element :=
  regs.find? (fun e => decide (e.name = nm))

/-- In-place mutation of the found element's state: replace the value of
the first element with the given name bytes. -/
def updateFirstBytes : List Element → List Nat → List Nat → List Element
  | [], _, _ => []
  | e :: es, nm, v =>
    if strBytes e.name = nm then { e with value := v } :: es
    else e :: updateFirstBytes es nm v

/-- In-place mutation of the found element's state during `Set`. -/
def updateFirst : List Element → String → List Nat → List Element
  | [], _, _ => []
  | e :: es, nm, v =>
    if e.name = nm then { e with value := v } :: es
    else e :: updateFirst es nm v

/-- `Impl::CalculateSchemaCrc`: `WriteSchema` into a 2048-byte bounded
buffer (writes beyond the buffer are dropped), then CRC32 over the bytes
written. -/
def CalculateSchemaCrc (h : SerializableHandlerBase) : Nat :=
  crc32 (h.schema.take 2048)

/-- The record-scanning loop of `Impl::DoLoad`, fueled for structural
recursion (`doLoadScan` below supplies sufficient fuel).  One iteration:
read the name length as a varuint (failure of the read stops the scan);
stop on a zero or oversized name length; view the name, skip past it, and
stop when fewer than 8 bytes remain (the CRC and length reads would
fail); read the stored CRC and the data length as `uint32`; a name absent
from the registry skips `dataSize` bytes; a stored CRC differing from the
group's recomputed schema CRC skips `dataSize` bytes; otherwise
`ReadBinary` applies the payload, consuming however many bytes it
consumes (its error return is ignored).  The returned pair is the updated
registry and the still-unread suffix of the stream at the stop point. -/
def scanGo : Nat → List Element → List Nat → List Element × List Nat
  | 0, regs, _ => (regs, [])
  | fuel + 1, regs, bytes =>
    match readVaruint bytes with
    | none => (regs, [])
    | some (nameSize, rest) =>
      if nameSize = 0 ∨ kMaxStringSize ≤ nameSize then (regs, rest)
      else if (rest.drop nameSize).length < 8 then (regs, rest.drop nameSize)
      else
        let name := rest.take nameSize
        let afterName := rest.drop nameSize
        let expectedCrc := leNat (afterName.take 4)
        let dataSize := leNat ((afterName.drop 4).take 4)
        let r2 := afterName.drop 8
        match findByBytes regs name with
        | none => scanGo fuel regs (r2.drop dataSize)
        | some e =>
          if CalculateSchemaCrc e.handler ≠ expectedCrc then
            scanGo fuel regs (r2.drop dataSize)
          else
            let p := e.handler.readBinary e.value r2
            scanGo fuel (updateFirstBytes regs name p.1) (r2.drop p.2)

/-- The scanning loop of `Impl::DoLoad` over a flash image. -/
def doLoadScan (regs : List Element) (bytes : List Nat) : List Element × List Nat :=
  scanGo (bytes.length + 1) regs bytes

/-- `Impl::DoLoad`: scan the flash image, then notify every registered
element that it has changed, in registry order. -/
def DoLoad (regs : List Element) (image : List Nat) : List Element × List Event :=
  let r := doLoadScan regs image
  (r.1, r.1.map (fun e => Event.updated e.name))

/-- `Impl::Load`: run `DoLoad`, then reply `OK`. -/
def Load (regs : List Element) (image : List Nat) : List Element × List Event :=
  let r := DoLoad regs image
  (r.1, r.2 ++ [Event.reply okReply, Event.complete none])

/-- The chunks a group's `WriteBinary` emits for its current value. -/
def dataChunks (e : Element) : List (List Nat) :=
  e.handler.writeBinaryChunks e.value

/-- The byte payload a group's real `WriteBinary` writes. -/
def dataBytes (e : Element) : List Nat := (dataChunks e).flatten

/-- The flash-stream operations `Impl::Write` performs for one group:
`WriteString` of the name (varuint length, then the bytes), the schema
CRC, the data length determined by the dry run into the counting sink,
then the real `WriteBinary` chunk writes. -/
def writeElementEvents (e : Element) : List Event :=
  [Event.flashWrite (varuintEnc (strBytes e.name).length),
   Event.flashWrite (strBytes e.name),
   Event.flashWrite (u32le (CalculateSchemaCrc e.handler)),
   Event.flashWrite (u32le (sizeCountingStreamSize (dataChunks e)))]
  ++ (dataChunks e).map Event.flashWrite

/-- `Impl::Write` up to the reply: unlock, erase, the per-group records
in registry order, the `uint32` zero terminator, lock. -/
def WriteEvents (regs : List Element) : List Event :=
  [Event.unlockFlash, Event.eraseFlash]
  ++ (regs.map writeElementEvents).flatten
  ++ [Event.flashWrite (u32le 0), Event.lockFlash]

/-- `Impl::Write`: the flash operations followed by the `OK` reply. -/
def Write (regs : List Element) : List Element × List Event :=
  (regs, WriteEvents regs ++ [Event.reply okReply, Event.complete none])

/-- The bytes laid down in the flash region by a sequence of operations:
the concatenation of every chunk written to the flash stream. -/
def writtenBytes (evts : List Event) : List Nat :=
  (evts.filterMap (fun ev =>
    match ev with
    | Event.flashWrite b => some b
    | _ => none)).flatten

/-- The flash image `Impl::Write` produces (the sequentially written
bytes; whatever the erase left beyond them is arbitrary). -/
def writeImage (regs : List Element) : List Nat :=
  writtenBytes (WriteEvents regs)

/-- The on-flash record `Impl::Write` emits for one group. -/
def encodeElement (e : Element) : List Nat :=
  varuintEnc (strBytes e.name).length ++ strBytes e.name
  ++ u32le (CalculateSchemaCrc e.handler)
  ++ u32le (sizeCountingStreamSize (dataChunks e))
  ++ dataBytes e

/-- `Impl::Default`: `SetDefault` every registered group (no update
notifications, no flash activity), then reply `OK`. -/
def Default (regs : List Element) : List Element × List Event :=
  (regs.map (fun e => { e with value := e.handler.setDefault }),
   [Event.reply okReply, Event.complete none])

/-- Modelled from the spec: the text tokenizer, an external collaborator;
split a character list at the first occurrence of the delimiter: the
token is the prefix before it, the remainder the suffix after it (empty
when the delimiter does not occur). -/
def splitFirstList (delim : Char) : List Char → List Char × List Char
  | [] => ([], [])
  | c :: cs =>
    if c = delim then ([], cs)
    else
      let p := splitFirstList delim cs
      (c :: p.1, p.2)

/-- Modelled from the spec: `base::Tokenizer` over a string — `next()`
and `remaining()` for a single delimiter character. -/
def splitFirstStr (delim : Char) (s : String) : String × String :=
  ((splitFirstList delim s.data).1.asString, (splitFirstList delim s.data).2.asString)

/-- The enumerate continuation (`Impl::Enumerate` starting at index 0
driving `Impl::EnumerateCallback`): entering step `i` invokes group `i`'s
`Enumerate` capability; the completion it reports either aborts the whole
command with that error (no `OK`, no further groups) or advances to the
next group; past the last group the `OK` reply is written. -/
def enumerateSteps : List Element → List Event
  | [] => [Event.reply okReply, Event.complete none]
  | e :: es =>
    Event.visitEnumerate e.name ::
      (match e.handler.enumerateError with
       | some err => [Event.complete (some err)]
       | none => enumerateSteps es)

/-- `Impl::Enumerate`. -/
def Enumerate (regs : List Element) : List Element × List Event :=
  (regs, enumerateSteps regs)

/-- `Impl::Get`: split the remainder at the first `.` into group and
field; unknown group replies `ERR unknown group`; a nonzero immediate
return from the handler's `Read` replies `ERR error reading`; otherwise
the handler streams the value and its completion either propagates an
error or appends the trailing CRLF. -/
def Get (regs : List Element) (field : String) : List Element × List Event :=
  let p := splitFirstStr '.' field
  match findByName regs p.1 with
  | none => (regs, [Event.reply errUnknownGroup, Event.complete none])
  | some e =>
    if e.handler.read p.2 ≠ 0 then
      (regs, [Event.reply errReading, Event.complete none])
    else
      match e.handler.readAsync p.2 with
      | some ec => (regs, [Event.complete (some ec)])
      | none => (regs, [Event.reply crlf, Event.complete none])

/-- `Impl::Set`: split the remainder at the first `.` into group and
rest, the rest at the first space into key and value; unknown group
replies `ERR unknown group`; a zero return from the handler's `Set`
fires the group's update callback and then replies `OK`; a nonzero
return replies `ERR error setting` without firing the callback. -/
def Set (regs : List Element) (command : String) : List Element × List Event :=
  let p := splitFirstStr '.' command
  match findByName regs p.1 with
  | none => (regs, [Event.reply errUnknownGroup, Event.complete none])
  | some e =>
    let kv := splitFirstStr ' ' p.2
    let r := e.handler.set kv.1 kv.2 e.value
    if r.1 = 0 then
      (updateFirst regs e.name r.2,
       [Event.updated e.name, Event.reply okReply, Event.complete none])
    else
      (regs, [Event.reply errSetting, Event.complete none])

/-- `Impl::Command`: split the line at the first space into the verb and
the remainder, dispatch on the verb; an unrecognized verb replies
`ERR unknown subcommand`. -/
def Command (regs : List Element) (image : List Nat) (line : String) :
    List Element × List Event :=
  let p := splitFirstStr ' ' line
  if p.1 = "enumerate" then Enumerate regs
  else if p.1 = "get" then Get regs p.2
  else if p.1 = "set" then Set regs p.2
  else if p.1 = "load" then Load regs image
  else if p.1 = "write" then Write regs
  else if p.1 = "default" then Default regs
  else (regs, [Event.reply errUnknownSub, Event.complete none])

/-! ### Codec lemmas -/

lemma readVaruintGo_length : ∀ (l : List Nat) (mult acc v : Nat) (rest : List Nat),
    readVaruintGo l mult acc = some (v, rest) → rest.length < l.length := by
  intro l
  induction l with
  | nil => intro mult acc v rest h; simp [readVaruintGo] at h
  | cons b bs ih =>
    intro mult acc v rest h
    simp only [readVaruintGo] at h
    by_cases hb : b < 128
    · rw [if_pos hb] at h
      simp only [Option.some.injEq, Prod.mk.injEq] at h
      obtain ⟨-, h2⟩ := h
      subst h2
      rw [List.length_cons]
      omega
    · rw [if_neg hb] at h
      have := ih _ _ _ _ h
      rw [List.length_cons]
      omega

lemma readVaruint_length {bytes : List Nat} {n : Nat} {rest : List Nat}
    (h : readVaruint bytes = some (n, rest)) : rest.length < bytes.length :=
  readVaruintGo_length bytes 1 0 n rest h

lemma readVaruintGo_enc : ∀ (fuel n : Nat), n < fuel → ∀ (mult acc : Nat) (l : List Nat),
    readVaruintGo (varuintEncGo fuel n ++ l) mult acc = some (acc + n * mult, l) := by
  intro fuel
  induction fuel with
  | zero => intro n h; omega
  | succ fuel ih =>
    intro n h mult acc l
    by_cases hn : n < 128
    · simp [varuintEncGo, if_pos hn, readVaruintGo, hn]
    · have hdiv : n / 128 < fuel := by
        have h1 : n / 128 < n := Nat.div_lt_self (by omega) (by omega)
        omega
      have hb : ¬ (n % 128 + 128 < 128) := by omega
      simp only [varuintEncGo, if_neg hn, List.cons_append, readVaruintGo, if_neg hb]
      rw [ih (n / 128) hdiv]
      have harith : acc + (n % 128 + 128 - 128) * mult + n / 128 * (mult * 128)
          = acc + n * mult := by
        have hmod : n % 128 + 128 - 128 = n % 128 := by omega
        rw [hmod]
        conv_rhs => rw [← Nat.div_add_mod n 128]
        ring
      rw [harith]

lemma readVaruint_enc (n : Nat) (l : List Nat) :
    readVaruint (varuintEnc n ++ l) = some (n, l) := by
  have := readVaruintGo_enc (n + 1) n (by omega) 1 0 l
  simpa [readVaruint, varuintEnc] using this

lemma varuintEnc_length_pos (n : Nat) : 0 < (varuintEnc n).length := by
  by_cases hn : n < 128 <;> simp [varuintEnc, varuintEncGo, hn]

lemma leNat_u32le (n : Nat) : leNat (u32le n) = n % 4294967296 := by
  simp only [u32le, leNat, List.foldr]
  omega

lemma u32le_length (n : Nat) : (u32le n).length = 4 := rfl

lemma sizeCountingStreamSize_go : ∀ (chunks : List (List Nat)) (i : Nat),
    chunks.foldl (fun acc c => acc + c.length) i = i + chunks.flatten.length := by
  intro chunks
  induction chunks with
  | nil => intro i; simp
  | cons c cs ih => intro i; simp [List.foldl_cons, ih, List.flatten_cons]; omega

/-- The dry-run into the counting sink yields exactly the byte count of
the real `WriteBinary` for the same (deterministic) handler state. -/
lemma sizeCountingStreamSize_eq (chunks : List (List Nat)) :
    sizeCountingStreamSize chunks = chunks.flatten.length := by
  simp [sizeCountingStreamSize, sizeCountingStreamSize_go]

lemma crc32_lt (bytes : List Nat) : crc32 bytes < 4294967296 :=
  Nat.mod_lt _ (by norm_num)

lemma CalculateSchemaCrc_lt (h : SerializableHandlerBase) :
    CalculateSchemaCrc h < 4294967296 := crc32_lt _

/-! ### Scan unfolding lemmas -/

lemma scanGo_congr : ∀ (f1 f2 : Nat) (regs : List Element) (bytes : List Nat),
    bytes.length < f1 → bytes.length < f2 →
    scanGo f1 regs bytes = scanGo f2 regs bytes := by
  intro f1
  induction f1 with
  | zero => intro f2 regs bytes h1; omega
  | succ f1 ih =>
    intro f2 regs bytes h1 h2
    cases f2 with
    | zero => omega
    | succ f2 =>
      simp only [scanGo]
      cases hv : readVaruint bytes with
      | none => rfl
      | some p =>
        obtain ⟨n, rest⟩ := p
        have hrest : rest.length < bytes.length := readVaruint_length hv
        by_cases h0 : n = 0 ∨ kMaxStringSize ≤ n
        · simp only [if_pos h0]
        · simp only [if_neg h0]
          by_cases h8 : (List.drop n rest).length < 8
          · simp only [if_neg h0, if_pos h8]
          · simp only [if_neg h8]
            cases hf : findByBytes regs (List.take n rest) with
            | none =>
              exact ih f2 regs _
                (by simp only [List.length_drop]; omega)
                (by simp only [List.length_drop]; omega)
            | some e =>
              by_cases hc : CalculateSchemaCrc e.handler
                  = leNat (List.take 4 (List.drop n rest))
              · simp only [ne_eq, hc, not_true_eq_false, if_false]
                exact ih f2 _ _
                  (by simp only [List.length_drop]; omega)
                  (by simp only [List.length_drop]; omega)
              · simp only [ne_eq, hc, not_false_eq_true, if_true]
                exact ih f2 regs _
                  (by simp only [List.length_drop]; omega)
                  (by simp only [List.length_drop]; omega)

/-- A zero name-length byte stops the scan immediately; the bytes after
it are left unread. -/
lemma doLoadScan_zeroByte (regs : List Element) (rest : List Nat) :
    doLoadScan regs (0 :: rest) = (regs, rest) := by
  simp [doLoadScan, scanGo, readVaruint, readVaruintGo]

/-- One well-formed on-flash record, its `dataLen` field agreeing with
its payload length. -/
def recordBytes (nmB : List Nat) (crcv : Nat) (data : List Nat) : List Nat :=
  varuintEnc nmB.length ++ nmB ++ u32le crcv ++ u32le data.length ++ data

lemma encodeElement_eq (e : Element) :
    encodeElement e
      = recordBytes (strBytes e.name) (CalculateSchemaCrc e.handler) (dataBytes e) := by
  simp [encodeElement, recordBytes, dataBytes, sizeCountingStreamSize_eq]

/-- Processing one well-formed record at the head of the stream: the scan
decodes the header, then either skips the payload by its declared length
(name not registered, or stored CRC differing from the recomputed schema
CRC) or lets `ReadBinary` consume what it consumes. -/
lemma doLoadScan_record (regs : List Element) (nmB : List Nat) (crcv : Nat)
    (data rest : List Nat)
    (h1 : 0 < nmB.length) (h2 : nmB.length < kMaxStringSize)
    (hcrc : crcv < 4294967296) (hd : data.length < 4294967296) :
    doLoadScan regs (recordBytes nmB crcv data ++ rest) =
      match findByBytes regs nmB with
      | none => doLoadScan regs rest
      | some e =>
        if CalculateSchemaCrc e.handler ≠ crcv then doLoadScan regs rest
        else
          doLoadScan (updateFirstBytes regs nmB (e.handler.readBinary e.value (data ++ rest)).1)
            ((data ++ rest).drop (e.handler.readBinary e.value (data ++ rest)).2) := by
  set R := nmB ++ (u32le crcv ++ (u32le data.length ++ (data ++ rest))) with hR
  have hshape : recordBytes nmB crcv data ++ rest = varuintEnc nmB.length ++ R := by
    simp [recordBytes, hR, List.append_assoc]
  have hA : List.take nmB.length R = nmB := List.take_left _ _
  have hB : List.drop nmB.length R = u32le crcv ++ (u32le data.length ++ (data ++ rest)) :=
    List.drop_left _ _
  have hE1 : leNat (List.take 4 (List.drop nmB.length R)) = crcv := by
    rw [hB, List.take_left' (u32le_length crcv), leNat_u32le, Nat.mod_eq_of_lt hcrc]
  have hD8 : List.drop 8 (List.drop nmB.length R) = data ++ rest := by
    rw [hB, ← List.append_assoc]
    exact List.drop_left' (by simp [u32le_length])
  have hE2 : leNat (List.take 4 (List.drop 4 (List.drop nmB.length R))) = data.length := by
    rw [hB, List.drop_left' (u32le_length crcv), List.take_left' (u32le_length _),
      leNat_u32le, Nat.mod_eq_of_lt hd]
  have hRlen : R.length = nmB.length + 8 + data.length + rest.length := by
    simp [hR, List.length_append, u32le_length]
    omega
  have hlen8 : ¬ ((List.drop nmB.length R).length < 8) := by
    rw [List.length_drop]
    omega
  have hcond : ¬ (nmB.length = 0 ∨ kMaxStringSize ≤ nmB.length) := by omega
  have hvpos := varuintEnc_length_pos nmB.length
  have hblen : (varuintEnc nmB.length ++ R).length
      = (varuintEnc nmB.length).length + R.length := List.length_append _ _
  rw [hshape, doLoadScan]
  simp only [scanGo, readVaruint_enc]
  rw [if_neg hcond, if_neg hlen8, hA, hE1, hE2, hD8, List.drop_left]
  cases hf : findByBytes regs nmB with
  | none =>
    rw [doLoadScan]
    apply scanGo_congr <;> omega
  | some e =>
    by_cases hc : CalculateSchemaCrc e.handler = crcv
    · simp only [ne_eq, hc, not_true_eq_false, if_false]
      rw [doLoadScan]
      apply scanGo_congr <;> simp only [List.length_drop, List.length_append] <;> omega
    · simp only [ne_eq, hc, not_false_eq_true, if_true]
      rw [doLoadScan]
      apply scanGo_congr <;> omega

/-! ### Registry projection: the scan never changes names or handlers -/

/-- Name-and-handler projection of a registry; the load scan may only
change element values. -/
def projNH (regs : List Element) : List (String × SerializableHandlerBase) :=
  regs.map (fun e => (e.name, e.handler))

lemma updateFirstBytes_proj (regs : List Element) (nm : List Nat) (v : List Nat) :
    projNH (updateFirstBytes regs nm v) = projNH regs := by
  induction regs with
  | nil => rfl
  | cons e es ih =>
    by_cases h : strBytes e.name = nm
    · simp [updateFirstBytes, h, projNH]
    · simp only [updateFirstBytes, if_neg h, projNH, List.map_cons]
      exact congrArg _ ih

lemma scanGo_proj : ∀ (fuel : Nat) (regs : List Element) (bytes : List Nat),
    projNH (scanGo fuel regs bytes).1 = projNH regs := by
  intro fuel
  induction fuel with
  | zero => intro regs bytes; rfl
  | succ fuel ih =>
    intro regs bytes
    cases hv : readVaruint bytes with
    | none => simp [scanGo, hv]
    | some p =>
      obtain ⟨n, rest⟩ := p
      simp only [scanGo, hv]
      by_cases h0 : n = 0 ∨ kMaxStringSize ≤ n
      · rw [if_pos h0]
      · rw [if_neg h0]
        by_cases h8 : (List.drop n rest).length < 8
        · rw [if_pos h8]
        · rw [if_neg h8]
          cases hf : findByBytes regs (List.take n rest) with
          | none => exact ih regs _
          | some e =>
            by_cases hc : CalculateSchemaCrc e.handler
                = leNat (List.take 4 (List.drop n rest))
            · simp only [ne_eq, hc, not_true_eq_false, if_false]
              rw [ih, updateFirstBytes_proj]
            · simp only [ne_eq, hc, not_false_eq_true, if_true]
              exact ih regs _

lemma doLoadScan_names (regs : List Element) (bytes : List Nat) :
    (doLoadScan regs bytes).1.map Element.name = regs.map Element.name := by
  have h := scanGo_proj (bytes.length + 1) regs bytes
  have h1 : ((doLoadScan regs bytes).1.map (fun e => (e.name, e.handler))).map Prod.fst
      = (regs.map (fun e => (e.name, e.handler))).map Prod.fst := by
    rw [doLoadScan]
    exact congrArg _ h
  simpa [List.map_map, Function.comp] using h1

/-! ### Scan stop conditions -/

lemma doLoadScan_stop_short (regs : List Element) (bytes : List Nat)
    (n : Nat) (rest : List Nat) (hv : readVaruint bytes = some (n, rest))
    (h0 : ¬ (n = 0 ∨ kMaxStringSize ≤ n)) (h8 : (rest.drop n).length < 8) :
    doLoadScan regs bytes = (regs, rest.drop n) := by
  rw [doLoadScan]
  simp only [scanGo, hv]
  rw [if_neg h0, if_pos h8]

lemma doLoadScan_stop_none (regs : List Element) (bytes : List Nat)
    (hv : readVaruint bytes = none) : doLoadScan regs bytes = (regs, []) := by
  rw [doLoadScan]
  simp only [scanGo, hv]

lemma doLoadScan_stop_badName (regs : List Element) (bytes : List Nat)
    (n : Nat) (rest : List Nat) (hv : readVaruint bytes = some (n, rest))
    (h0 : n = 0 ∨ kMaxStringSize ≤ n) : doLoadScan regs bytes = (regs, rest) := by
  rw [doLoadScan]
  simp only [scanGo, hv]
  rw [if_pos h0]

lemma findByBytes_cons (e : Element) (es : List Element) (nm : List Nat) :
    findByBytes (e :: es) nm
      = if strBytes e.name = nm then some e else findByBytes es nm := by
  by_cases h : strBytes e.name = nm <;> simp [findByBytes, List.find?_cons, h]

lemma findByName_cons (e : Element) (es : List Element) (nm : String) :
    findByName (e :: es) nm
      = if e.name = nm then some e else findByName es nm := by
  by_cases h : e.name = nm <;> simp [findByName, List.find?_cons, h]

/-! ### Effect of the scan on one well-formed record, and on a whole
written image -/

/-- Ghost description of what the scan does to the registry for one
well-formed record (written for a group `a` by `Write`): a conforming
registry element with the same name and matching schema CRC receives
`a`'s value; otherwise nothing changes. -/
def applyRecord (C : List Element) (a : Element) : List Element :=
  match findByBytes C (strBytes a.name) with
  | none => C
  | some e =>
    if CalculateSchemaCrc e.handler = CalculateSchemaCrc a.handler
    then updateFirstBytes C (strBytes a.name) a.value
    else C

/-- Ghost description of a full image scan over the records written for
the groups of `A`, in order. -/
def applyRecords (C : List Element) (A : List Element) : List Element :=
  A.foldl applyRecord C

lemma applyRecord_proj (C : List Element) (a : Element) :
    projNH (applyRecord C a) = projNH C := by
  unfold applyRecord
  cases hf : findByBytes C (strBytes a.name) with
  | none => rfl
  | some e =>
    by_cases hc : CalculateSchemaCrc e.handler = CalculateSchemaCrc a.handler
    · simp [hc, updateFirstBytes_proj]
    · simp [hc]

lemma findByBytes_projNH : ∀ (C C' : List Element), projNH C = projNH C' → ∀ nm,
    Option.map (fun e => (e.name, e.handler)) (findByBytes C nm)
      = Option.map (fun e => (e.name, e.handler)) (findByBytes C' nm) := by
  intro C
  induction C with
  | nil =>
    intro C' h nm
    cases C' with
    | nil => rfl
    | cons e es => simp [projNH] at h
  | cons c cs ih =>
    intro C' h nm
    cases C' with
    | nil => simp [projNH] at h
    | cons c' cs' =>
      simp only [projNH, List.map_cons, List.cons.injEq] at h
      obtain ⟨hhead, htail⟩ := h
      have hname : c.name = c'.name := congrArg Prod.fst hhead
      have hhand : c.handler = c'.handler := congrArg Prod.snd hhead
      rw [findByBytes_cons, findByBytes_cons, hname]
      by_cases hn : strBytes c'.name = nm
      · simp [hn, hname, hhand]
      · simp only [hn, if_false]
        exact ih cs' htail nm

/-- Transfer the per-record `ReadBinary` contract across a registry with
the same names and handlers (only values differ). -/
lemma readContract_transfer (C C' : List Element) (hproj : projNH C' = projNH C)
    (a : Element)
    (h : ∀ e, findByBytes C (strBytes a.name) = some e →
      CalculateSchemaCrc e.handler = CalculateSchemaCrc a.handler →
      ∀ old rest, e.handler.readBinary old (dataBytes a ++ rest)
        = (a.value, (dataBytes a).length)) :
    ∀ e', findByBytes C' (strBytes a.name) = some e' →
      CalculateSchemaCrc e'.handler = CalculateSchemaCrc a.handler →
      ∀ old rest, e'.handler.readBinary old (dataBytes a ++ rest)
        = (a.value, (dataBytes a).length) := by
  intro e' hf' hc' old rest
  have hmap := findByBytes_projNH C' C hproj (strBytes a.name)
  rw [hf'] at hmap
  cases hfc : findByBytes C (strBytes a.name) with
  | none => rw [hfc] at hmap; simp at hmap
  | some e0 =>
    rw [hfc] at hmap
    simp only [Option.map_some', Option.some.injEq, Prod.mk.injEq] at hmap
    obtain ⟨-, hh⟩ := hmap
    rw [hh]
    exact h e0 hfc (by rw [← hh]; exact hc') old rest

/-- Scanning the concatenated records written for the groups of `A`
followed by arbitrary trailing bytes: each record is applied in order,
provided each conforming handler's `ReadBinary` consumes exactly the
bytes its `WriteBinary` wrote and restores the written value. -/
lemma doLoadScan_encodedRecords : ∀ (A C : List Element) (tail : List Nat),
    (∀ a ∈ A, 0 < (strBytes a.name).length) →
    (∀ a ∈ A, (strBytes a.name).length < kMaxStringSize) →
    (∀ a ∈ A, (dataBytes a).length < 4294967296) →
    (∀ a ∈ A, ∀ e, findByBytes C (strBytes a.name) = some e →
      CalculateSchemaCrc e.handler = CalculateSchemaCrc a.handler →
      ∀ old rest, e.handler.readBinary old (dataBytes a ++ rest)
        = (a.value, (dataBytes a).length)) →
    doLoadScan C ((A.map encodeElement).flatten ++ tail)
      = doLoadScan (applyRecords C A) tail := by
  intro A
  induction A with
  | nil => intro C tail _ _ _ _; rfl
  | cons a A ih =>
    intro C tail hn1 hn2 hsz hread
    have hbytes : ((a :: A).map encodeElement).flatten ++ tail
        = recordBytes (strBytes a.name) (CalculateSchemaCrc a.handler) (dataBytes a)
          ++ ((A.map encodeElement).flatten ++ tail) := by
      rw [List.map_cons, List.flatten_cons, encodeElement_eq, List.append_assoc]
    rw [hbytes]
    rw [doLoadScan_record _ _ _ _ _ (hn1 a (by simp)) (hn2 a (by simp))
      (CalculateSchemaCrc_lt a.handler) (hsz a (by simp))]
    have happly : applyRecords C (a :: A) = applyRecords (applyRecord C a) A := rfl
    rw [happly]
    cases hf : findByBytes C (strBytes a.name) with
    | none =>
      have ha : applyRecord C a = C := by simp [applyRecord, hf]
      rw [ha]
      exact ih C tail (fun b hb => hn1 b (by simp [hb]))
        (fun b hb => hn2 b (by simp [hb])) (fun b hb => hsz b (by simp [hb]))
        (fun b hb => hread b (by simp [hb]))
    | some e =>
      by_cases hc : CalculateSchemaCrc e.handler = CalculateSchemaCrc a.handler
      · simp only [ne_eq, hc, not_true_eq_false, if_false]
        rw [hread a (by simp) e hf hc e.value ((A.map encodeElement).flatten ++ tail)]
        have hdl : (dataBytes a ++ ((A.map encodeElement).flatten ++ tail)).drop
            (dataBytes a).length = (A.map encodeElement).flatten ++ tail :=
          List.drop_left _ _
        rw [hdl]
        have ha : applyRecord C a = updateFirstBytes C (strBytes a.name) a.value := by
          simp [applyRecord, hf, hc]
        rw [← ha]
        have hproj : projNH (applyRecord C a) = projNH C := applyRecord_proj C a
        exact ih (applyRecord C a) tail (fun b hb => hn1 b (by simp [hb]))
          (fun b hb => hn2 b (by simp [hb])) (fun b hb => hsz b (by simp [hb]))
          (fun b hb => readContract_transfer C (applyRecord C a) hproj b
            (hread b (by simp [hb])))
      · simp only [ne_eq, hc, not_false_eq_true, if_true]
        have ha : applyRecord C a = C := by
          simp [applyRecord, hf, hc]
        rw [ha]
        exact ih C tail (fun b hb => hn1 b (by simp [hb]))
          (fun b hb => hn2 b (by simp [hb])) (fun b hb => hsz b (by simp [hb]))
          (fun b hb => hread b (by simp [hb]))

/-! ### Alignment of the written records with the loading registry -/

/-- Per-position effect of loading a freshly written image: position `i`
of the registry receives the written value of position `i` exactly when
the schema CRCs agree. -/
def updCrc (c a : Element) : Element :=
  if CalculateSchemaCrc c.handler = CalculateSchemaCrc a.handler
  then { c with value := a.value } else c

lemma applyRecord_cons_ne (c : Element) (C : List Element) (a : Element)
    (h : strBytes a.name ≠ strBytes c.name) :
    applyRecord (c :: C) a = c :: applyRecord C a := by
  have hcns : ¬ (strBytes c.name = strBytes a.name) := fun hh => h hh.symm
  unfold applyRecord
  rw [findByBytes_cons, if_neg hcns]
  cases hf : findByBytes C (strBytes a.name) with
  | none => rfl
  | some e =>
    by_cases hc : CalculateSchemaCrc e.handler = CalculateSchemaCrc a.handler
    · simp [hc, updateFirstBytes, hcns]
    · simp [hc]

lemma applyRecords_cons_notMem : ∀ (A : List Element) (c : Element) (C : List Element),
    (∀ a ∈ A, strBytes a.name ≠ strBytes c.name) →
    applyRecords (c :: C) A = c :: applyRecords C A := by
  intro A
  induction A with
  | nil => intro c C _; rfl
  | cons a A ih =>
    intro c C h
    show applyRecords (applyRecord (c :: C) a) A = c :: applyRecords (applyRecord C a) A
    rw [applyRecord_cons_ne c C a (h a (by simp))]
    exact ih c _ (fun b hb => h b (by simp [hb]))

lemma updCrc_name (c a : Element) : (updCrc c a).name = c.name := by
  unfold updCrc
  split <;> rfl

/-- With pointwise equal names and no duplicates, scanning the records of
`A` over a registry `C` updates each position independently: position `i`
gets `A`'s `i`-th value exactly when the schema CRCs at `i` agree. -/
lemma applyRecords_align : ∀ (A C : List Element),
    C.map (fun e => strBytes e.name) = A.map (fun e => strBytes e.name) →
    (A.map (fun e => strBytes e.name)).Nodup →
    applyRecords C A = List.zipWith updCrc C A := by
  intro A
  induction A with
  | nil =>
    intro C h _
    cases C with
    | nil => rfl
    | cons c cs => simp at h
  | cons a A ih =>
    intro C hmap hnd
    cases C with
    | nil => simp at hmap
    | cons c C =>
      simp only [List.map_cons, List.cons.injEq] at hmap
      obtain ⟨hname, htail⟩ := hmap
      obtain ⟨hnotin, hnd2⟩ := List.nodup_cons.mp hnd
      have hstep : applyRecord (c :: C) a = updCrc c a :: C := by
        unfold applyRecord updCrc
        rw [findByBytes_cons, if_pos hname]
        by_cases hc : CalculateSchemaCrc c.handler = CalculateSchemaCrc a.handler
        · simp [hc, updateFirstBytes, hname]
        · simp [hc]
      show applyRecords (applyRecord (c :: C) a) A = _
      rw [hstep]
      rw [applyRecords_cons_notMem A (updCrc c a) C ?hnm]
      · rw [ih C htail hnd2]
        rfl
      case hnm =>
        intro b hb
        have hmem : strBytes b.name ∈ A.map (fun e => strBytes e.name) :=
          List.mem_map_of_mem _ hb
        rw [updCrc_name, hname]
        intro hh
        apply hnotin
        show strBytes a.name ∈ List.map (fun e => strBytes e.name) A
        rw [← hh]
        exact hmem

/-- With pointwise equal names and no duplicates, looking up the `i`-th
written name finds exactly the `i`-th registry element. -/
lemma findByBytes_align : ∀ (C A : List Element),
    C.map (fun e => strBytes e.name) = A.map (fun e => strBytes e.name) →
    (A.map (fun e => strBytes e.name)).Nodup →
    ∀ (i : Nat) (hC : i < C.length) (hA : i < A.length),
    findByBytes C (strBytes (A.get ⟨i, hA⟩).name) = some (C.get ⟨i, hC⟩) := by
  intro C
  induction C with
  | nil => intro A h hnd i hC; simp at hC
  | cons c C ih =>
    intro A h hnd i hC hA
    cases A with
    | nil => simp at hA
    | cons a A =>
      simp only [List.map_cons, List.cons.injEq] at h
      obtain ⟨hname, htail⟩ := h
      obtain ⟨hnotin, hnd2⟩ := List.nodup_cons.mp hnd
      cases i with
      | zero =>
        rw [findByBytes_cons]
        simp only [List.get]
        rw [if_pos (by rw [hname])]
      | succ i =>
        rw [findByBytes_cons]
        simp only [List.get]
        have hiA : i < A.length := by
          simp only [List.length_cons] at hA
          omega
        have hmem : strBytes ((A.get ⟨i, hiA⟩).name)
            ∈ A.map (fun e => strBytes e.name) :=
          List.mem_map_of_mem _ (A.get_mem i hiA)
        have hne : ¬ (strBytes c.name = strBytes ((A.get ⟨i, hiA⟩).name)) := by
          rw [hname]
          intro hh
          apply hnotin
          show strBytes a.name ∈ List.map (fun e => strBytes e.name) A
          rw [hh]
          exact hmem
        rw [if_neg hne]
        exact ih A htail hnd2 i _ _

lemma zipWith_updCrc_value : ∀ (C A : List Element) (i : Nat)
    (hC : i < C.length) (hA : i < A.length),
    CalculateSchemaCrc (C.get ⟨i, hC⟩).handler
      = CalculateSchemaCrc (A.get ⟨i, hA⟩).handler →
    ((List.zipWith updCrc C A).map Element.value).getD i []
      = (A.get ⟨i, hA⟩).value := by
  intro C
  induction C with
  | nil => intro A i hC; simp at hC
  | cons c C ih =>
    intro A i hC hA hcrc
    cases A with
    | nil => simp at hA
    | cons a A =>
      cases i with
      | zero =>
        simp only [List.get] at hcrc
        simp [updCrc, hcrc]
      | succ i =>
        simp only [List.get] at hcrc
        simp only [List.zipWith_cons_cons, List.map_cons, List.getD_cons_succ]
        exact ih A i (by simp only [List.length_cons] at hC; omega)
          (by simp only [List.length_cons] at hA; omega) hcrc

/-! ### The written image -/

lemma writtenBytes_append (l1 l2 : List Event) :
    writtenBytes (l1 ++ l2) = writtenBytes l1 ++ writtenBytes l2 := by
  simp [writtenBytes, List.filterMap_append]

lemma writtenBytes_mapFlash : ∀ (l : List (List Nat)),
    writtenBytes (l.map Event.flashWrite) = l.flatten := by
  intro l
  induction l with
  | nil => rfl
  | cons c cs ih =>
    simp only [List.map_cons, writtenBytes, List.filterMap_cons] at ih ⊢
    simp only [List.flatten_cons]
    rw [← ih]

lemma writtenBytes_writeElementEvents (e : Element) :
    writtenBytes (writeElementEvents e) = encodeElement e := by
  unfold writeElementEvents encodeElement
  rw [writtenBytes_append, writtenBytes_mapFlash]
  rw [show writtenBytes [Event.flashWrite (varuintEnc (strBytes e.name).length),
      Event.flashWrite (strBytes e.name),
      Event.flashWrite (u32le (CalculateSchemaCrc e.handler)),
      Event.flashWrite (u32le (sizeCountingStreamSize (dataChunks e)))]
      = varuintEnc (strBytes e.name).length ++ (strBytes e.name
        ++ (u32le (CalculateSchemaCrc e.handler)
        ++ (u32le (sizeCountingStreamSize (dataChunks e)) ++ []))) from rfl]
  simp [dataBytes, List.append_assoc]

/-- The byte image `Write` lays down: the records of every group in
registry order, then the 4-byte `uint32` zero terminator. -/
lemma writeImage_eq (regs : List Element) :
    writeImage regs = (regs.map encodeElement).flatten ++ u32le 0 := by
  unfold writeImage WriteEvents
  rw [writtenBytes_append, writtenBytes_append]
  have h1 : writtenBytes [Event.unlockFlash, Event.eraseFlash] = [] := rfl
  have h2 : writtenBytes [Event.flashWrite (u32le 0), Event.lockFlash] = u32le 0 := by
    simp [writtenBytes]
  rw [h1, h2, List.nil_append]
  have h3 : ∀ (l : List Element),
      writtenBytes ((l.map writeElementEvents).flatten) = (l.map encodeElement).flatten := by
    intro l
    induction l with
    | nil => rfl
    | cons e es ih =>
      simp only [List.map_cons, List.flatten_cons]
      rw [writtenBytes_append, ih, writtenBytes_writeElementEvents]
  rw [h3]

/-- The `default` command's effect on the registry. -/
lemma Default_regs (regs : List Element) :
    (Default regs).1 = regs.map (fun e => { e with value := e.handler.setDefault }) := rfl

/-- Loading a freshly written image (plus arbitrary trailing bytes left
by the erase) applies every record in order and then stops on the first
byte of the 4-byte zero terminator, leaving its remaining three zero
bytes and everything beyond unread. -/
lemma doLoadScan_writeImage (A C : List Element) (junk : List Nat)
    (hn1 : ∀ a ∈ A, 0 < (strBytes a.name).length)
    (hn2 : ∀ a ∈ A, (strBytes a.name).length < kMaxStringSize)
    (hsz : ∀ a ∈ A, (dataBytes a).length < 4294967296)
    (hread : ∀ a ∈ A, ∀ e, findByBytes C (strBytes a.name) = some e →
      CalculateSchemaCrc e.handler = CalculateSchemaCrc a.handler →
      ∀ old rest, e.handler.readBinary old (dataBytes a ++ rest)
        = (a.value, (dataBytes a).length)) :
    doLoadScan C (writeImage A ++ junk) = (applyRecords C A, 0 :: 0 :: 0 :: junk) := by
  rw [writeImage_eq, List.append_assoc]
  rw [doLoadScan_encodedRecords A C (u32le 0 ++ junk) hn1 hn2 hsz hread]
  have hz : u32le 0 ++ junk = 0 :: (0 :: 0 :: 0 :: junk) := rfl
  rw [hz, doLoadScan_zeroByte]

/-! ### Tokenizer lemmas -/

lemma splitFirstList_append (delim : Char) : ∀ (a b : List Char), delim ∉ a →
    splitFirstList delim (a ++ delim :: b) = (a, b) := by
  intro a
  induction a with
  | nil => intro b _; simp [splitFirstList]
  | cons c cs ih =>
    intro b h
    have hc : ¬ (c = delim) := by
      intro hh
      exact h (by simp [hh])
    have hcs : delim ∉ cs := fun hh => h (by simp [hh])
    simp only [List.cons_append, splitFirstList, if_neg hc, List.append_eq]
    rw [ih b hcs]

lemma splitFirstStr_append (delim : Char) (a sep b : String)
    (h : delim ∉ a.data) (hsep : sep.data = [delim]) :
    splitFirstStr delim (a ++ sep ++ b) = (a, b) := by
  unfold splitFirstStr
  have hdata : (a ++ sep ++ b).data = a.data ++ delim :: b.data := by
    rw [String.data_append, String.data_append, hsep]
    simp
  rw [hdata, splitFirstList_append delim a.data b.data h]
  rfl

lemma splitFirstList_notMem (delim : Char) : ∀ (l : List Char), delim ∉ l →
    splitFirstList delim l = (l, []) := by
  intro l
  induction l with
  | nil => intro _; rfl
  | cons c cs ih =>
    intro h
    have hc : ¬ (c = delim) := by
      intro hh
      exact h (by simp [hh])
    have hcs : delim ∉ cs := fun hh => h (by simp [hh])
    simp only [splitFirstList, if_neg hc, ih hcs]

lemma splitFirstStr_notMem (delim : Char) (s : String) (h : delim ∉ s.data) :
    splitFirstStr delim s = (s, "") := by
  unfold splitFirstStr
  rw [splitFirstList_notMem delim s.data h]
  rfl

/-! ### Enumerate traces -/

/-- With no handler reporting an error, enumerate visits every group in
order and finishes with the `OK` reply and a successful completion. -/
lemma enumerateSteps_ok : ∀ (regs : List Element),
    (∀ e ∈ regs, e.handler.enumerateError = none) →
    enumerateSteps regs
      = regs.map (fun e => Event.visitEnumerate e.name)
        ++ [Event.reply okReply, Event.complete none] := by
  intro regs
  induction regs with
  | nil => intro _; rfl
  | cons e es ih =>
    intro h
    have he : e.handler.enumerateError = none := h e (by simp)
    simp only [enumerateSteps, he, List.map_cons, List.cons_append]
    rw [ih (fun x hx => h x (by simp [hx]))]

/-- The first handler to report an error aborts enumerate: groups before
it and itself are visited, the error is propagated to the command
completion, no `OK` is sent, and no later group is visited. -/
lemma enumerateSteps_err : ∀ (pre : List Element) (e : Element) (post : List Element)
    (err : Nat), (∀ x ∈ pre, x.handler.enumerateError = none) →
    e.handler.enumerateError = some err →
    enumerateSteps (pre ++ e :: post)
      = (pre ++ [e]).map (fun x => Event.visitEnumerate x.name)
        ++ [Event.complete (some err)] := by
  intro pre
  induction pre with
  | nil =>
    intro e post err _ he
    simp [enumerateSteps, he]
  | cons x pre ih =>
    intro e post err h he
    have hx : x.handler.enumerateError = none := h x (by simp)
    simp only [List.cons_append, enumerateSteps, hx, List.map_cons, List.append_eq]
    rw [ih e post err (fun y hy => h y (by simp [hy])) he]

/-! ### The write trace, stated as the spec words it -/

/-- The flash-operation sequence of claim C3, following the claim's own
words: unlock, erase, then per group in registry order the varint-length
name, the schema CRC recomputed exactly as during load, a `dataLen` field
equal to the byte count of the subsequent real `WriteBinary`, then that
write's chunks; after all groups a `uint32` zero terminator record and
the final lock. -/
def writeSpecTrace (regs : List Element) : List Event :=
  [Event.unlockFlash, Event.eraseFlash]
  ++ (regs.map (fun e =>
       [Event.flashWrite (varuintEnc (strBytes e.name).length),
        Event.flashWrite (strBytes e.name),
        Event.flashWrite (u32le (CalculateSchemaCrc e.handler)),
        Event.flashWrite (u32le (dataBytes e).length)]
       ++ (dataChunks e).map Event.flashWrite)).flatten
  ++ [Event.flashWrite (u32le 0), Event.lockFlash]

/-! ### Remaining helper lemmas -/

lemma map_updated_of_names (l1 l2 : List Element)
    (h : l1.map Element.name = l2.map Element.name) :
    l1.map (fun e => Event.updated e.name) = l2.map (fun e => Event.updated e.name) := by
  have h1 : (l1.map Element.name).map Event.updated
      = (l2.map Element.name).map Event.updated := by rw [h]
  simpa [List.map_map, Function.comp] using h1

/-- After any load, every registered group's update callback fires
exactly once, in registry order. -/
lemma DoLoad_events (regs : List Element) (image : List Nat) :
    (DoLoad regs image).2 = regs.map (fun e => Event.updated e.name) := by
  show (doLoadScan regs image).1.map (fun e => Event.updated e.name)
      = regs.map (fun e => Event.updated e.name)
  exact map_updated_of_names _ _ (doLoadScan_names regs image)

/-- In a registry with no duplicate names, looking up a member's name
finds that member. -/
lemma findByBytes_self : ∀ (A : List Element),
    (A.map (fun e => strBytes e.name)).Nodup →
    ∀ a ∈ A, findByBytes A (strBytes a.name) = some a := by
  intro A
  induction A with
  | nil => intro _ a ha; simp at ha
  | cons b A ih =>
    intro hnd a ha
    obtain ⟨hnotin, hnd2⟩ := List.nodup_cons.mp hnd
    rw [findByBytes_cons]
    rcases List.mem_cons.mp ha with hab | haA
    · subst hab
      rw [if_pos rfl]
    · have hmem : strBytes a.name ∈ A.map (fun e => strBytes e.name) :=
        List.mem_map_of_mem _ haA
      have hne : ¬ (strBytes b.name = strBytes a.name) := by
        intro hh
        apply hnotin
        show strBytes b.name ∈ List.map (fun e => strBytes e.name) A
        rw [hh]
        exact hmem
      rw [if_neg hne]
      exact ih hnd2 a haA

lemma Default_length (B : List Element) : ((Default B).1).length = B.length := by
  rw [Default_regs]
  exact List.length_map _ _

lemma Default_get (B : List Element) (i : Nat) (hiB : i < B.length)
    (hC : i < ((Default B).1).length) :
    ((Default B).1).get ⟨i, hC⟩
      = { B.get ⟨i, hiB⟩ with value := (B.get ⟨i, hiB⟩).handler.setDefault } := by
  simp [Default_regs, List.get_eq_getElem, List.getElem_map]

lemma Default_names (B : List Element) :
    ((Default B).1).map (fun e => strBytes e.name)
      = B.map (fun e => strBytes e.name) := by
  rw [Default_regs, List.map_map]
  rfl

/-! ### Concrete handlers and registries for instantiations -/

/-- A conforming single-byte handler: `WriteBinary` emits the first byte
of the state as one chunk, `ReadBinary` consumes exactly one byte. -/
def oneByteHandler : SerializableHandlerBase :=
  { schema := [1]
    writeBinaryChunks := fun v => [v.take 1]
    readBinary := fun _ s => (s.take 1, 1)
    setDefault := [0]
    set := fun _ _ old => (0, old)
    read := fun _ => 0
    readAsync := fun _ => none
    enumerateError := none }

/-- A handler whose `ReadBinary` consumes no bytes and keeps the old
state (legal for the interface: the engine never checks consumption). -/
def zeroReadHandler : SerializableHandlerBase :=
  { schema := [2]
    writeBinaryChunks := fun v => [v]
    readBinary := fun old _ => (old, 0)
    setDefault := [0]
    set := fun _ _ old => (0, old)
    read := fun _ => 0
    readAsync := fun _ => none
    enumerateError := none }

/-- A handler whose `Enumerate` capability reports error code 5. -/
def failEnumHandler : SerializableHandlerBase :=
  { schema := [3]
    writeBinaryChunks := fun v => [v.take 1]
    readBinary := fun _ s => (s.take 1, 1)
    setDefault := [0]
    set := fun _ _ old => (0, old)
    read := fun _ => 0
    readAsync := fun _ => none
    enumerateError := some 5 }

def egA : Element := { name := "a", handler := oneByteHandler, value := [7] }

def egA0 : Element := { name := "a", handler := oneByteHandler, value := [5] }

def egB : Element := { name := "b", handler := oneByteHandler, value := [0] }

def egBad : Element := { name := "b", handler := failEnumHandler, value := [8] }

def egZero : Element := { name := "a", handler := zeroReadHandler, value := [7] }

/-- A full record for group "b" carrying payload byte 42; used as the
*data region* of an outer record in the C4 counterexample. -/
def c4InnerRecord : List Nat :=
  recordBytes (strBytes "b") (CalculateSchemaCrc oneByteHandler) [42]

/-- A single record for group "a" whose declared `dataLen` covers all the
remaining bytes of the image (which happen to spell a record for "b"). -/
def c4Image : List Nat :=
  recordBytes (strBytes "a") (CalculateSchemaCrc zeroReadHandler) c4InnerRecord

/-! ### Claims -/

/-- C2: the enumerate command visits every registered group exactly once,
in registry (registration) order, invoking each group's `Enumerate`
capability in turn; if a step's completion callback reports an error, the
error is propagated to the overall command completion callback, no `OK`
reply is sent, and no further group is visited; only after the index
passes the last group is `OK\r\n` written. -/
theorem c2_enumerate_order_and_abort :
    (∀ regs : List Element, (∀ e ∈ regs, e.handler.enumerateError = none) →
      (Enumerate regs).2 = regs.map (fun e => Event.visitEnumerate e.name)
        ++ [Event.reply okReply, Event.complete none])
    ∧ (∀ (pre : List Element) (e : Element) (post : List Element) (err : Nat),
      (∀ x ∈ pre, x.handler.enumerateError = none) →
      e.handler.enumerateError = some err →
      (Enumerate (pre ++ e :: post)).2
        = (pre ++ [e]).map (fun x => Event.visitEnumerate x.name)
          ++ [Event.complete (some err)]) :=
  ⟨fun regs h => enumerateSteps_ok regs h,
   fun pre e post err h he => enumerateSteps_err pre e post err h he⟩

theorem c2_enumerate_order_and_abort_witness :
    (Enumerate [egA, egB]).2
      = [egA, egB].map (fun e => Event.visitEnumerate e.name)
        ++ [Event.reply okReply, Event.complete none]
    ∧ (Enumerate ([egA] ++ egBad :: [egA])).2
        = ([egA] ++ [egBad]).map (fun x => Event.visitEnumerate x.name)
          ++ [Event.complete (some 5)] :=
  ⟨c2_enumerate_order_and_abort.1 [egA, egB] (by decide),
   c2_enumerate_order_and_abort.2 [egA] egBad [egA] 5 (by decide) (by decide)⟩

/-- C3: the write operation performs, in order: unlock, erase, then per
group in registry order the varint-length-prefixed name, the schema CRC
recomputed exactly as during load (the shared `CalculateSchemaCrc`), a
`dataLen` field equal to the byte count of the subsequent real
`WriteBinary` (obtained by the dry run into the size-only counting sink),
then the real `WriteBinary` chunks; after all groups the `nameLen == 0`
terminator record, and finally the lock. -/
theorem c3_write_sequence (regs : List Element) :
    WriteEvents regs = writeSpecTrace regs := by
  unfold WriteEvents writeSpecTrace
  have hfg : writeElementEvents = fun e =>
      [Event.flashWrite (varuintEnc (strBytes e.name).length),
       Event.flashWrite (strBytes e.name),
       Event.flashWrite (u32le (CalculateSchemaCrc e.handler)),
       Event.flashWrite (u32le (dataBytes e).length)]
      ++ (dataChunks e).map Event.flashWrite := by
    funext e
    unfold writeElementEvents
    rw [sizeCountingStreamSize_eq]
    rfl
  rw [hfg]

/-- C5: during the load scan, a record whose name is not registered, or
whose stored CRC differs from the group's current schema CRC, is skipped
by its declared `dataLen` without invoking `ReadBinary` (the registry —
every group's in-memory state — is returned unchanged and the result does
not depend on any handler's `readBinary`), and the scan continues with
the later records rather than aborting. -/
theorem c5_skip_isolation (regs : List Element) (nmB : List Nat) (crcv : Nat)
    (data rest : List Nat)
    (h1 : 0 < nmB.length) (h2 : nmB.length < kMaxStringSize)
    (hcrc : crcv < 4294967296) (hd : data.length < 4294967296) :
    (findByBytes regs nmB = none →
      doLoadScan regs (recordBytes nmB crcv data ++ rest) = doLoadScan regs rest)
    ∧ (∀ e, findByBytes regs nmB = some e → CalculateSchemaCrc e.handler ≠ crcv →
      doLoadScan regs (recordBytes nmB crcv data ++ rest) = doLoadScan regs rest) := by
  constructor
  · intro hf
    rw [doLoadScan_record regs nmB crcv data rest h1 h2 hcrc hd, hf]
  · intro e hf hne
    rw [doLoadScan_record regs nmB crcv data rest h1 h2 hcrc hd, hf]
    simp [hne]

theorem c5_skip_isolation_witness :
    doLoadScan [egA] (recordBytes [98] 0 [1, 2] ++ [0, 9])
      = doLoadScan [egA] [0, 9] :=
  (c5_skip_isolation [egA] [98] 0 [1, 2] [0, 9] (by decide) (by decide)
    (by decide) (by decide)).1 rfl

/-- C6: after the load scan ends — by any stop condition, on any image —
the `onUpdate` callback of every registered group is invoked exactly
once, in registry order, regardless of whether that group's data was
found in the image or applied. -/
theorem c6_update_notifications (regs : List Element) (image : List Nat) :
    (DoLoad regs image).2 = regs.map (fun e => Event.updated e.name) :=
  DoLoad_events regs image

/-- C7: the load command replies `OK\r\n` for every flash image,
including corrupt or truncated ones: the decode produces only update
notifications followed by the `OK` reply and a successful completion —
no failure outcome is visible to the protocol layer. -/
theorem c7_load_always_ok (regs : List Element) (image : List Nat) :
    (Load regs image).2
      = regs.map (fun e => Event.updated e.name)
        ++ [Event.reply okReply, Event.complete none] := by
  show (DoLoad regs image).2 ++ [Event.reply okReply, Event.complete none] = _
  rw [DoLoad_events]

/-- C8: a `set` command line's remainder is split at the first `.` into
group and rest, the rest at the first space into field key and value; an
unregistered group replies exactly `ERR unknown group\r\n` and no
handler `Set` runs (the registry is returned unchanged and the result
does not depend on any handler's `set`); otherwise the handler's
`Set(key, value)` runs: a zero return fires the group's update callback
synchronously before the `OK\r\n` reply, a nonzero return replies
exactly `ERR error setting\r\n` with no update callback. -/
theorem c8_set_command (regs : List Element) (group key value : String)
    (hg : '.' ∉ group.data) (hk : ' ' ∉ key.data) :
    (findByName regs group = none →
      Set regs (group ++ "." ++ (key ++ " " ++ value))
        = (regs, [Event.reply errUnknownGroup, Event.complete none]))
    ∧ (∀ e, findByName regs group = some e → (e.handler.set key value e.value).1 = 0 →
      Set regs (group ++ "." ++ (key ++ " " ++ value))
        = (updateFirst regs e.name (e.handler.set key value e.value).2,
           [Event.updated e.name, Event.reply okReply, Event.complete none]))
    ∧ (∀ e, findByName regs group = some e → (e.handler.set key value e.value).1 ≠ 0 →
      Set regs (group ++ "." ++ (key ++ " " ++ value))
        = (regs, [Event.reply errSetting, Event.complete none])) := by
  have hsplit1 : splitFirstStr '.' (group ++ "." ++ (key ++ " " ++ value))
      = (group, key ++ " " ++ value) :=
    splitFirstStr_append '.' group "." (key ++ " " ++ value) hg rfl
  have hsplit2 : splitFirstStr ' ' (key ++ " " ++ value) = (key, value) :=
    splitFirstStr_append ' ' key " " value hk rfl
  refine ⟨?_, ?_, ?_⟩
  · intro hf
    simp only [Set, hsplit1, hf]
  · intro e hf h0
    simp only [Set, hsplit1, hf, hsplit2, h0, if_true]
  · intro e hf h0
    simp only [Set, hsplit1, hf, hsplit2]
    rw [if_neg h0]

theorem c8_set_command_witness :
    Set [egA] ("a" ++ "." ++ ("x" ++ " " ++ "1"))
      = (updateFirst [egA] egA.name (egA.handler.set "x" "1" egA.value).2,
         [Event.updated egA.name, Event.reply okReply, Event.complete none]) :=
  (c8_set_command [egA] "a" "x" "1" (by decide) (by decide)).2.1 egA rfl rfl

/-- C9: every protocol error — an unknown verb, and an unknown or
unresolvable group token in `get`/`set` (which is how a malformed line
missing the `.` separator manifests: the whole remainder becomes the
group token) — is surfaced as a textual `ERR ...` reply, and the command
still completes successfully at the transport level (`complete none`
after the reply). -/
theorem c9_protocol_errors (regs : List Element) (image : List Nat) (line : String)
    (cmd rest : String) (hsplit : splitFirstStr ' ' line = (cmd, rest)) :
    (cmd ≠ "enumerate" → cmd ≠ "get" → cmd ≠ "set" → cmd ≠ "load" → cmd ≠ "write" →
      cmd ≠ "default" →
      Command regs image line = (regs, [Event.reply errUnknownSub, Event.complete none]))
    ∧ (cmd = "get" → findByName regs (splitFirstStr '.' rest).1 = none →
      Command regs image line = (regs, [Event.reply errUnknownGroup, Event.complete none]))
    ∧ (cmd = "set" → findByName regs (splitFirstStr '.' rest).1 = none →
      Command regs image line = (regs, [Event.reply errUnknownGroup, Event.complete none])) := by
  refine ⟨?_, ?_, ?_⟩
  · intro h1 h2 h3 h4 h5 h6
    simp only [Command, hsplit]
    rw [if_neg h1, if_neg h2, if_neg h3, if_neg h4, if_neg h5, if_neg h6]
  · intro hc hf
    subst hc
    simp [Command, hsplit, Get, hf]
  · intro hc hf
    subst hc
    simp [Command, hsplit, Set, hf]

theorem c9_protocol_errors_witness :
    Command [egA] [] "frobnicate now"
      = ([egA], [Event.reply errUnknownSub, Event.complete none])
    ∧ Command [egA] [] "get bogus.x"
        = ([egA], [Event.reply errUnknownGroup, Event.complete none])
    ∧ Command [egA] [] "set bogusnodot 1"
        = ([egA], [Event.reply errUnknownGroup, Event.complete none]) :=
  ⟨(c9_protocol_errors [egA] [] "frobnicate now" "frobnicate" "now" (by decide)).1
     (by decide) (by decide) (by decide) (by decide) (by decide) (by decide),
   (c9_protocol_errors [egA] [] "get bogus.x" "get" "bogus.x" (by decide)).2.1
     rfl rfl,
   (c9_protocol_errors [egA] [] "set bogusnodot 1" "set" "bogusnodot 1" (by decide)).2.2
     rfl rfl⟩

/-- C4 (amended): for every flash image the scan decodes records one at a
time and stops exactly when the name-length varuint cannot be read (stream
exhausted), when it reads a name length of 0 or one at least
`kMaxStringSize`, or when fewer than 8 bytes remain after the name; once a
record's name, CRC and length are decoded, a record that is *skipped*
(unknown name, or stored CRC differing from the recomputed schema CRC) is
consumed by exactly its declared `dataLen`; an *applied* record is
consumed by however many bytes the handler's `ReadBinary` consumes, which
need not equal `dataLen`. -/
theorem c4_scan_stop_and_consumption :
    (∀ (regs : List Element) (bytes : List Nat), readVaruint bytes = none →
      doLoadScan regs bytes = (regs, []))
    ∧ (∀ (regs : List Element) (bytes : List Nat) (n : Nat) (rest : List Nat),
      readVaruint bytes = some (n, rest) → n = 0 ∨ kMaxStringSize ≤ n →
      doLoadScan regs bytes = (regs, rest))
    ∧ (∀ (regs : List Element) (bytes : List Nat) (n : Nat) (rest : List Nat),
      readVaruint bytes = some (n, rest) → ¬ (n = 0 ∨ kMaxStringSize ≤ n) →
      (rest.drop n).length < 8 →
      doLoadScan regs bytes = (regs, rest.drop n))
    ∧ (∀ (regs : List Element) (nmB : List Nat) (crcv : Nat) (data rest : List Nat),
      0 < nmB.length → nmB.length < kMaxStringSize → crcv < 4294967296 →
      data.length < 4294967296 →
      (findByBytes regs nmB = none ∨
        ∃ e, findByBytes regs nmB = some e ∧ CalculateSchemaCrc e.handler ≠ crcv) →
      doLoadScan regs (recordBytes nmB crcv data ++ rest) = doLoadScan regs rest)
    ∧ (∀ (regs : List Element) (nmB : List Nat) (crcv : Nat) (data rest : List Nat)
      (e : Element), 0 < nmB.length → nmB.length < kMaxStringSize →
      crcv < 4294967296 → data.length < 4294967296 →
      findByBytes regs nmB = some e → CalculateSchemaCrc e.handler = crcv →
      doLoadScan regs (recordBytes nmB crcv data ++ rest)
        = doLoadScan (updateFirstBytes regs nmB (e.handler.readBinary e.value (data ++ rest)).1)
            ((data ++ rest).drop (e.handler.readBinary e.value (data ++ rest)).2)) := by
  refine ⟨?_, ?_, ?_, ?_, ?_⟩
  · intro regs bytes hv
    exact doLoadScan_stop_none regs bytes hv
  · intro regs bytes n rest hv h0
    exact doLoadScan_stop_badName regs bytes n rest hv h0
  · intro regs bytes n rest hv h0 h8
    exact doLoadScan_stop_short regs bytes n rest hv h0 h8
  · intro regs nmB crcv data rest h1 h2 hcrc hd hcase
    rw [doLoadScan_record regs nmB crcv data rest h1 h2 hcrc hd]
    rcases hcase with hf | ⟨e, hf, hne⟩
    · rw [hf]
    · rw [hf]
      simp [hne]
  · intro regs nmB crcv data rest e h1 h2 hcrc hd hf hc
    rw [doLoadScan_record regs nmB crcv data rest h1 h2 hcrc hd, hf]
    simp [hc]

theorem c4_scan_stop_and_consumption_witness :
    doLoadScan [egA] [1, 97, 5] = ([egA], [5]) :=
  c4_scan_stop_and_consumption.2.2.1 [egA] [1, 97, 5] 1 [97, 5]
    (by decide) (by decide) (by decide)

/-- C4 counterexample to the claim as stated.  `c4Image` is exactly one
record: name "a" (registered, CRC matching), `dataLen` equal to the whole
remaining byte count, its data region spelling a record for group "b".
Had the scan consumed `dataLen` bytes of that record "regardless of
outcome", the stream would be exhausted afterwards and no registry value
could change ("a"'s `ReadBinary` returns its old state): the values would
still be `[[7], [0]]`.  In fact "a"'s `ReadBinary` consumes 0 bytes, the
scan resumes *inside* the record's data region, parses it as a record for
"b", and "b"'s value becomes `[42]`. -/
theorem c4_counterexample :
    (doLoadScan [egZero, egB] c4Image).1.map Element.value
      ≠ [egZero, egB].map Element.value := by
  decide

/-- C10: the write operation encodes each record's name length as a
varint but emits the end-of-image terminator as a fixed 4-byte `uint32`
zero (`[0,0,0,0]`), not the 1-byte varint zero (`varuintEnc 0 = [0]`);
since the load scan reads name lengths as varuints and a zero byte
decodes as varuint 0, a load over a freshly written image stops at the
first byte of that terminator, leaving its remaining three zero bytes and
every byte beyond them unread. -/
theorem c10_terminator_encoding (A : List Element) (junk : List Nat)
    (hn1 : ∀ a ∈ A, 0 < (strBytes a.name).length)
    (hn2 : ∀ a ∈ A, (strBytes a.name).length < kMaxStringSize)
    (hsz : ∀ a ∈ A, (dataBytes a).length < 4294967296)
    (hnodup : (A.map (fun e => strBytes e.name)).Nodup)
    (hread : ∀ a ∈ A, ∀ old rest, a.handler.readBinary old (dataBytes a ++ rest)
      = (a.value, (dataBytes a).length)) :
    writeImage A = (A.map encodeElement).flatten ++ [0, 0, 0, 0]
    ∧ varuintEnc 0 = [0]
    ∧ (doLoadScan A (writeImage A ++ junk)).2 = 0 :: 0 :: 0 :: junk := by
  have hreadC : ∀ a ∈ A, ∀ e, findByBytes A (strBytes a.name) = some e →
      CalculateSchemaCrc e.handler = CalculateSchemaCrc a.handler →
      ∀ old rest, e.handler.readBinary old (dataBytes a ++ rest)
        = (a.value, (dataBytes a).length) := by
    intro a ha e hf _
    rw [findByBytes_self A hnodup a ha] at hf
    rw [← Option.some.inj hf]
    exact hread a ha
  refine ⟨?_, rfl, ?_⟩
  · rw [writeImage_eq, (by decide : u32le 0 = [0, 0, 0, 0])]
  · rw [doLoadScan_writeImage A A junk hn1 hn2 hsz hreadC]

theorem c10_terminator_encoding_witness :
    writeImage [egA] = ([egA].map encodeElement).flatten ++ [0, 0, 0, 0]
    ∧ varuintEnc 0 = [0]
    ∧ (doLoadScan [egA] (writeImage [egA] ++ [9, 9])).2 = 0 :: 0 :: 0 :: [9, 9] :=
  c10_terminator_encoding [egA] [9, 9] (by decide) (by decide) (by decide) (by decide)
    (by
      intro a ha old rest
      simp only [List.mem_singleton] at ha
      subst ha
      rfl)

/-- C1: write the registry `A` (arbitrary valid in-memory values), reset
every group to defaults (the `default` operation), then load — over a
registry `B` with the same group names in the same order, whose handlers
may have changed in between.  Every group whose schema CRC is unchanged
between the write and the load gets back a value identical to its
pre-write value.  "Valid values / registered groups" are the hypotheses:
non-empty names below `kMaxStringSize`, no duplicate names, payloads
below 2^32 bytes, and for CRC-unchanged groups a `ReadBinary` that
consumes exactly what `WriteBinary` wrote and restores the written
value. -/
theorem c1_write_default_load_round_trip (A B : List Element) (junk : List Nat)
    (hnames : B.map (fun e => strBytes e.name) = A.map (fun e => strBytes e.name))
    (hnodup : (A.map (fun e => strBytes e.name)).Nodup)
    (hn1 : ∀ a ∈ A, 0 < (strBytes a.name).length)
    (hn2 : ∀ a ∈ A, (strBytes a.name).length < kMaxStringSize)
    (hsz : ∀ a ∈ A, (dataBytes a).length < 4294967296)
    (hround : ∀ (i : Nat) (hiB : i < B.length) (hiA : i < A.length),
      CalculateSchemaCrc (B.get ⟨i, hiB⟩).handler
        = CalculateSchemaCrc (A.get ⟨i, hiA⟩).handler →
      ∀ old rest, (B.get ⟨i, hiB⟩).handler.readBinary old (dataBytes (A.get ⟨i, hiA⟩) ++ rest)
        = ((A.get ⟨i, hiA⟩).value, (dataBytes (A.get ⟨i, hiA⟩)).length)) :
    ∀ (i : Nat) (hiB : i < B.length) (hiA : i < A.length),
      CalculateSchemaCrc (B.get ⟨i, hiB⟩).handler
        = CalculateSchemaCrc (A.get ⟨i, hiA⟩).handler →
      (((DoLoad (Default B).1 (writeImage A ++ junk)).1).map Element.value).getD i []
        = (A.get ⟨i, hiA⟩).value := by
  have hCB : ((Default B).1).map (fun e => strBytes e.name)
      = B.map (fun e => strBytes e.name) := Default_names B
  have hCA : ((Default B).1).map (fun e => strBytes e.name)
      = A.map (fun e => strBytes e.name) := hCB.trans hnames
  have hlenC : ((Default B).1).length = B.length := Default_length B
  have hreadC : ∀ a ∈ A, ∀ e, findByBytes (Default B).1 (strBytes a.name) = some e →
      CalculateSchemaCrc e.handler = CalculateSchemaCrc a.handler →
      ∀ old rest, e.handler.readBinary old (dataBytes a ++ rest)
        = (a.value, (dataBytes a).length) := by
    intro a ha e hf hcrcEq old rest
    obtain ⟨⟨j, hjA⟩, ha2⟩ := List.mem_iff_get.mp ha
    subst ha2
    have hjB : j < B.length := by
      have := congrArg List.length hnames
      simp only [List.length_map] at this
      omega
    have hjC : j < ((Default B).1).length := by omega
    have hfind := findByBytes_align (Default B).1 A hCA hnodup j hjC hjA
    rw [hfind] at hf
    have he := Option.some.inj hf
    have hget := Default_get B j hjB hjC
    have hhand : e.handler = (B.get ⟨j, hjB⟩).handler := by
      rw [← he, hget]
    rw [hhand] at hcrcEq ⊢
    exact hround j hjB hjA hcrcEq old rest
  intro i hiB hiA hcrc
  have hiC : i < ((Default B).1).length := by omega
  have hscan := doLoadScan_writeImage A (Default B).1 junk hn1 hn2 hsz hreadC
  show (((doLoadScan (Default B).1 (writeImage A ++ junk)).1).map Element.value).getD i []
      = (A.get ⟨i, hiA⟩).value
  rw [hscan]
  show (((applyRecords (Default B).1 A).map Element.value)).getD i []
      = (A.get ⟨i, hiA⟩).value
  rw [applyRecords_align A (Default B).1 hCA hnodup]
  refine zipWith_updCrc_value (Default B).1 A i hiC hiA ?_
  have hget := Default_get B i hiB hiC
  have hhand : (((Default B).1).get ⟨i, hiC⟩).handler = (B.get ⟨i, hiB⟩).handler := by
    rw [hget]
  rw [hhand]
  exact hcrc

theorem c1_write_default_load_round_trip_witness :
    (((DoLoad (Default [egA0]).1 (writeImage [egA] ++ [9, 9])).1).map Element.value).getD 0 []
      = [7] :=
  c1_write_default_load_round_trip [egA] [egA0] [9, 9] (by decide) (by decide)
    (by decide) (by decide) (by decide)
    (by
      intro i hiB hiA hcrc old rest
      simp only [List.length_singleton] at hiB
      have h0 : i = 0 := by omega
      subst h0
      rfl)
    0 (by decide) (by decide) (by decide)

end PersistentConfig
